import Mathlib

/-!
Kronmult: batched Kronecker-product multiply.

A shallow embedding of the kernels of `project-asgard/kronmult`:

* `kronmult/openmp/linear_algebra.hpp`: `colmajor`, `transpose`,
  `multiply_transpose_blas`, `multiply_transpose`;
* `kronmult3.hpp`, `kronmult6.hpp`: the degree-3 and degree-6 recursive steps.

Memory model.  All buffers live in one flat memory `Mem R = Nat → R`, addressed by element
offset; a C pointer `T*` is the address of its first element and pointer
arithmetic is addition of offsets.  Disjointness of buffers is therefore an
explicit hypothesis (`sep`) of every theorem that needs it.  Scalars `T` are
the elements of a commutative ring `R` (exact arithmetic).  The C `int`
dimensions are natural numbers: sizes are non-negative and size arithmetic is
taken without overflow; the 32-bit behaviour of the size arithmetic of
`kronmult6` is treated apart, in `kronmult6_sizes32`.

Loops `for (k = 0; k < n; k++)` are `forLoop n body`, which runs `body 0`,
`body 1`, ..., `body (n-1)` in this order on the state.
-/

namespace Kronmult

/-- Flat memory of scalars, addressed by element offset. -/
abbrev Mem (R : Type) := Nat → R

/-- The C loop `for (k = 0; k < n; k++) body(k)` as a state transformer. -/
def forLoop {σ : Type} : Nat → (Nat → σ → σ) → σ → σ
  | 0, _, s => s
  | k + 1, body, s => body k (forLoop k body s)

/-- The store `p[0] = v` at address `p`. -/
def store {R : Type} (m : Mem R) (p : Nat) (v : R) : Mem R :=
  fun a => if a = p then v else m a

/-- Two address ranges `[p, p + l)` and `[q, q + k)` do not overlap. -/
def sep (p l q k : Nat) : Prop := p + l ≤ q ∨ q + k ≤ p

instance (p l q k : Nat) : Decidable (sep p l q k) := by
  unfold sep; infer_instance

/-! ## `kronmult/openmp/linear_algebra.hpp` -/

/-- `colmajor(row, col, stride) = row + col*stride`. -/
def colmajor (row col stride : Nat) : Nat := row + col * stride

section LinearAlgebra

variable {R : Type} [CommRing R]

/-- `transpose(input, output, matrix_size, input_stride)`: for each `r`, for each `c`,
`output[colmajor(r, c, matrix_size)] = input[colmajor(c, r, input_stride)]`. -/
def transpose (input output matrix_size input_stride : Nat) (m : Mem R) : Mem R :=
  forLoop matrix_size (fun r m =>
    forLoop matrix_size (fun c m =>
      store m (output + colmajor r c matrix_size) (m (input + colmajor c r input_stride))) m) m

/-- Modelled from the spec: the BLAS routine `dgemm_` is only declared (`extern "C"`) in
`linear_algebra.hpp`; following the GemmPrimitive contract it computes, column-major,
`C := alpha*op(A)*op(B) + beta*C` with `C` of shape `m × n`, `op(A)` of shape `m × k`,
`op(B)` of shape `k × n`, and `op` the transpose for flag `'T'`, the identity otherwise.
The right-hand side is read from the memory at the time of the call. -/
def dgemm_ (transa transb : Char) (m n k : Nat) (alpha : R) (A lda B ldb : Nat)
    (beta : R) (C ldc : Nat) (mem : Mem R) : Mem R :=
  forLoop n (fun j acc =>
    forLoop m (fun i acc =>
      store acc (C + (i + j * ldc))
        (alpha * (∑ l in Finset.range k,
            mem (A + (if transa = 'T' then l + i * lda else i + l * lda)) *
            mem (B + (if transb = 'T' then j + l * ldb else l + j * ldb)))
          + beta * mem (C + (i + j * ldc)))) acc) mem

/-- Modelled from the spec: `sgemm_` is the single-precision twin of `dgemm_`, with the same
contract. -/
def sgemm_ (transa transb : Char) (m n k : Nat) (alpha : R) (A lda B ldb : Nat)
    (beta : R) (C ldc : Nat) (mem : Mem R) : Mem R :=
  dgemm_ transa transb m n k alpha A lda B ldb beta C ldc mem

/-- `multiply_transpose_blas(X, nb_col_X, M, size_M, stride_M, Y)`; `value` is the
compile-time test `std::is_same<T, float>::value` selecting `sgemm_` or `dgemm_`.
The `DEBUG` print is dead code (`DEBUG = false`). -/
def multiply_transpose_blas (value : Bool) (X nb_col_X M size_M stride_M Y : Nat)
    (mem : Mem R) : Mem R :=
  let transa := 'T'
  let transb := 'T'
  let m := nb_col_X
  let n := size_M
  let k := size_M
  let one : R := 1
  let A := X
  let lda := size_M
  let B := M
  let ldb := stride_M
  let zero : R := 0
  let C := Y
  let ldc := nb_col_X
  if value then sgemm_ transa transb m n k one A lda B ldb zero C ldc mem
  else dgemm_ transa transb m n k one A lda B ldb zero C ldc mem

/-- `multiply_transpose(X, nb_col_X, M, size_M, stride_M, Y, M_transposed)`: transpose `M`
into the scratch buffer, then one left-to-right dot product per entry of `Y`. -/
def multiply_transpose (X nb_col_X M size_M stride_M Y M_transposed : Nat)
    (mem : Mem R) : Mem R :=
  let mem1 := transpose M M_transposed size_M stride_M mem
  forLoop size_M (fun rowM mem =>
    let M_transposed_col := M_transposed + colmajor 0 rowM size_M
    forLoop nb_col_X (fun colX mem =>
      let X_transposed_row := X + colmajor 0 colX size_M
      let dotprod : R := forLoop size_M (fun k dotprod =>
        dotprod + mem (X_transposed_row + k) * mem (M_transposed_col + k)) 0
      store mem (Y + colmajor colX rowM nb_col_X) dotprod) mem) mem1

end LinearAlgebra

/-! ## `kronmult3.hpp`, `kronmult6.hpp`

The callees `kgemm_nt`, `kronmult2` and `kronmult5` are templates of headers that are not part
of the sources at hand.  The two routines are therefore written over an arbitrary state `σ` and
take their callees as parameters; they are then run either on memory, with the callees modelled
from their contracts, or on a call log that records each call with its arguments. -/

/-- Modelled from the spec: the index macro `indx2f` of `kroncommon.hpp` maps the 1-based logical
indices `(i, j)` of a column-major view of leading dimension `ld` to the 0-based offset
`(i-1) + (j-1)*ld`. -/
def indx2f (i j ld : Nat) : Nat := (i - 1) + (j - 1) * ld

/-- Signature of `kgemm_nt(mm, nn, kk, alpha, A, ldA, B, ldB, beta, C, ldC)`. -/
abbrev GemmNT (σ R : Type) :=
  Nat → Nat → Nat → R → Nat → Nat → Nat → Nat → R → Nat → Nat → σ → σ

/-- Signature of `kronmult2(n, nvec, A1, A2, X, Y, W)`. -/
abbrev Kron2 (σ : Type) := Nat → Nat → Nat → Nat → Nat → Nat → Nat → σ → σ

/-- Signature of `kronmult5(n, nvec, A1, A2, A3, A4, A5, X, Y, W, lda)`. -/
abbrev Kron5 (σ : Type) :=
  Nat → Nat → Nat → Nat → Nat → Nat → Nat → Nat → Nat → Nat → Nat → σ → σ

section Recursive

variable {σ R : Type} [CommRing R]

/-- The first-factor loop of `kronmult3` (lines 31-73): one `kgemm_nt` call per vector,
`Wi(1:n^2, 1:n) = Xi(1:n^2, 1:n) * transpose(A1(1:n, 1:n))`. -/
def kronmult3_loop (kgemm_nt : GemmNT σ R) (n nvec A1_ X_ W_ : Nat) (s : σ) : σ :=
  let n2 := n * n
  let n3 := n * n2
  let ldX := n3
  let ldW := n3
  forLoop nvec (fun i0 s =>
    let i := i0 + 1
    let Xi_ := X_ + indx2f 1 i ldX
    let Wi_ := W_ + indx2f 1 i ldW
    let ldXi := n2
    let ldWi := n2
    let mm := n2
    let nn := n
    let kk := n
    let alpha : R := 1
    let beta : R := 0
    let Ap := Xi_ + indx2f 1 1 ldXi
    let Bp := A1_
    let Cp := Wi_ + indx2f 1 1 ldWi
    let ld1 := ldXi
    let ld2 := n
    let ld3 := ldWi
    kgemm_nt mm nn kk alpha Ap ld1 Bp ld2 beta Cp ld3 s) s

/-- `kronmult3(n, nvec, A1_, A2_, A3_, X_, Y_, W_)`: the first-factor loop, then
`kronmult2(n, nvec*n, A2_, A3_, W_, Y_, X_)`. -/
def kronmult3 (kgemm_nt : GemmNT σ R) (kronmult2 : Kron2 σ)
    (n nvec A1_ A2_ A3_ X_ Y_ W_ : Nat) (s : σ) : σ :=
  let s1 := kronmult3_loop kgemm_nt n nvec A1_ X_ W_ s
  let next_nvec := nvec * n
  kronmult2 n next_nvec A2_ A3_ W_ Y_ X_ s1

/-- The first-factor loop of `kronmult6` (lines 34-97): one `kgemm_nt` call per vector,
`Wi(1:n^5, 1:n) = Xi(1:n^5, 1:n) * transpose(A1(1:n, 1:n))`, with `A1` of leading
dimension `lda`. -/
def kronmult6_loop (kgemm_nt : GemmNT σ R) (n nvec A1_ X_ W_ lda_in : Nat) (s : σ) : σ :=
  let lda := if lda_in = 0 then n else lda_in
  let n2 := n * n
  let n4 := n2 * n2
  let n5 := n * n4
  let n6 := n2 * n4
  let ldX := n6
  let ldW := n6
  forLoop nvec (fun i0 s =>
    let i := i0 + 1
    let Xi_ := X_ + indx2f 1 i ldX
    let Wi_ := W_ + indx2f 1 i ldW
    let ldXi := n5
    let ldWi := n5
    let mm := n5
    let nn := n
    let kk := n
    let alpha : R := 1
    let beta : R := 0
    let Ap := Xi_ + indx2f 1 1 ldXi
    let Bp := A1_
    let Cp := Wi_ + indx2f 1 1 ldWi
    let ld1 := ldXi
    let ld2 := lda
    let ld3 := ldWi
    kgemm_nt mm nn kk alpha Ap ld1 Bp ld2 beta Cp ld3 s) s

/-- `kronmult6(n, nvec, A1_, ..., A6_, X_, Y_, W_, lda_in)`: the first-factor loop, the
barrier `SYNCTHREADS` (no effect on a sequential state), then
`kronmult5(n, nvec*n, A2_, ..., A6_, W_, Y_, X_, lda)`. -/
def kronmult6 (kgemm_nt : GemmNT σ R) (kronmult5 : Kron5 σ)
    (n nvec A1_ A2_ A3_ A4_ A5_ A6_ X_ Y_ W_ lda_in : Nat) (s : σ) : σ :=
  let lda := if lda_in = 0 then n else lda_in
  let s1 := kronmult6_loop kgemm_nt n nvec A1_ X_ W_ lda_in s
  let next_nvec := nvec * n
  kronmult5 n next_nvec A2_ A3_ A4_ A5_ A6_ W_ Y_ X_ lda s1

end Recursive

/-! ### Callees on memory -/

section Contracts

variable {R : Type} [CommRing R]

/-- Modelled from the spec: `kgemm_nt` (header `kgemm_nt.hpp`, not among the sources) follows
the GEMM contract `C := alpha*A*B^T + beta*C` with `C` of shape `mm × nn`, `A` of shape
`mm × kk`, `B` of shape `nn × kk`, all column-major and addressed through `indx2f`.  It writes
the `mm × nn` entries of `C` and nothing else; the right-hand side is read from the memory at
the time of the call. -/
def kgemm_nt (mm nn kk : Nat) (alpha : R) (A_ ldA B_ ldB : Nat) (beta : R) (C_ ldC : Nat)
    (mem : Mem R) : Mem R :=
  forLoop nn (fun j acc =>
    forLoop mm (fun i acc =>
      store acc (C_ + indx2f (i + 1) (j + 1) ldC)
        (alpha * (∑ k in Finset.range kk,
            mem (A_ + indx2f (i + 1) (k + 1) ldA) * mem (B_ + indx2f (j + 1) (k + 1) ldB))
          + beta * mem (C_ + indx2f (i + 1) (j + 1) ldC))) acc) mem

/-- Entry `r` of `kron(b1, b2) * x` for `n × n` matrices `b1`, `b2` and a vector `x` of length
`n^2`: with `r = i2 + n*i1`,
`sum over k1, k2 < n of b1(i1,k1) * b2(i2,k2) * x(k2 + n*k1)`. -/
def kronApply2 (n : Nat) (b1 b2 : Nat → Nat → R) (x : Nat → R) (r : Nat) : R :=
  ∑ k1 in Finset.range n, ∑ k2 in Finset.range n,
    b1 (r / n) k1 * b2 (r % n) k2 * x (k2 + n * k1)

/-- Entry `r` of `kron(b1, ..., b5) * x` for `n × n` matrices and a vector `x` of length `n^5`:
with `r = i5 + n*i4 + n^2*i3 + n^3*i2 + n^4*i1`, the sum over `k1, ..., k5 < n` of
`b1(i1,k1) * ... * b5(i5,k5) * x(k5 + n*k4 + n^2*k3 + n^3*k2 + n^4*k1)`. -/
def kronApply5 (n : Nat) (b1 b2 b3 b4 b5 : Nat → Nat → R) (x : Nat → R) (r : Nat) : R :=
  ∑ k1 in Finset.range n, ∑ k2 in Finset.range n, ∑ k3 in Finset.range n,
    ∑ k4 in Finset.range n, ∑ k5 in Finset.range n,
      b1 (r / n ^ 4) k1 * b2 (r / n ^ 3 % n) k2 * b3 (r / n ^ 2 % n) k3 *
        b4 (r / n % n) k4 * b5 (r % n) k5 *
        x (k5 + n * k4 + n ^ 2 * k3 + n ^ 3 * k2 + n ^ 4 * k1)

/-- The `n × n` column-major matrix stored at address `A` with leading dimension `ld`, as a
function of its 0-based row and column. -/
def matAt (mem : Mem R) (A ld : Nat) (i k : Nat) : R := mem (A + (i + ld * k))

/-- Modelled from the spec: `kronmult2` (header `kronmult2.hpp`, not among the sources)
evaluates `Y = kron(A1, A2) * X`: for every column `c < nvec` it writes
`Y(:,c) = kron(A1, A2) * X(:,c)`, the factors being `n × n` with leading dimension `n` and
`X`, `Y` being `n^2 × nvec`.  The right-hand side is read from the memory at the time of the
call; what the routine leaves in its workspace `W` is not part of the contract and the
workspace is left as it is. -/
def kronmult2 (n nvec A1_ A2_ X_ Y_ _W_ : Nat) (mem : Mem R) : Mem R :=
  forLoop nvec (fun c acc =>
    forLoop (n ^ 2) (fun r acc =>
      store acc (Y_ + (r + n ^ 2 * c))
        (kronApply2 n (matAt mem A1_ n) (matAt mem A2_ n)
          (fun p => mem (X_ + (p + n ^ 2 * c))) r)) acc) mem

/-- Modelled from the spec: `kronmult5` (header `kronmult5.hpp`, not among the sources)
evaluates `Y = kron(A1, ..., A5) * X`: for every column `c < nvec` it writes
`Y(:,c) = kron(A1, ..., A5) * X(:,c)`, with `X`, `Y` being `n^5 × nvec`.  Its last argument is
the leading-dimension override, which by the spec applies to the first factor of the call
only (`0` meaning `n`); the other factors have leading dimension `n`.  The right-hand side is
read from the memory at the time of the call and the workspace `W` is left as it is. -/
def kronmult5 (n nvec A1_ A2_ A3_ A4_ A5_ X_ Y_ _W_ lda_in : Nat) (mem : Mem R) : Mem R :=
  let lda := if lda_in = 0 then n else lda_in
  forLoop nvec (fun c acc =>
    forLoop (n ^ 5) (fun r acc =>
      store acc (Y_ + (r + n ^ 5 * c))
        (kronApply5 n (matAt mem A1_ lda) (matAt mem A2_ n) (matAt mem A3_ n)
          (matAt mem A4_ n) (matAt mem A5_ n) (fun p => mem (X_ + (p + n ^ 5 * c))) r)) acc) mem

end Contracts

/-! ### Callees on a call log -/

/-- A call issued by `kronmult3` or `kronmult6`, with its arguments in source order. -/
inductive Call (R : Type) where
  | kgemm_nt (mm nn kk : Nat) (alpha : R) (A ldA B ldB : Nat) (beta : R) (C ldC : Nat)
  | kronmult2 (n nvec A1 A2 X Y W : Nat)
  | kronmult5 (n nvec A1 A2 A3 A4 A5 X Y W lda : Nat)
  deriving DecidableEq

/-- Record a `kgemm_nt` call at the end of the log. -/
def logGemm {R : Type} : GemmNT (List (Call R)) R :=
  fun mm nn kk alpha A ldA B ldB beta C ldC log =>
    log ++ [Call.kgemm_nt mm nn kk alpha A ldA B ldB beta C ldC]

/-- Record a `kronmult2` call at the end of the log. -/
def logKron2 {R : Type} : Kron2 (List (Call R)) :=
  fun n nvec A1 A2 X Y W log => log ++ [Call.kronmult2 n nvec A1 A2 X Y W]

/-- Record a `kronmult5` call at the end of the log. -/
def logKron5 {R : Type} : Kron5 (List (Call R)) :=
  fun n nvec A1 A2 A3 A4 A5 X Y W lda log =>
    log ++ [Call.kronmult5 n nvec A1 A2 A3 A4 A5 X Y W lda]

/-- Whether a logged call is a `kgemm_nt` call. -/
def Call.isGemm {R : Type} : Call R → Bool
  | Call.kgemm_nt .. => true
  | _ => false

/-! ## Concrete memories used to instantiate the theorems -/

/-- The memory holding the list `l` from address `0` on, and `0` elsewhere. -/
def memOfList (l : List Int) : Mem Int := fun a => l.getD a 0

/-- Layout for `multiply_transpose` with `size_M = 2`, `stride_M = 2`, `nb_col_X = 1`:
`X` at `0`, `M` at `2`, `Y` at `6`, `M_transposed` at `8`. -/
def memLA : Mem Int := memOfList [5, 7, 1, 2, 3, 4]

/-- Same layout, `X` holding `(1, 2)` and garbage in `Y` and in the scratch buffer. -/
def memLA2 : Mem Int := memOfList [1, 2, 1, 2, 3, 4, 9, 9, 8, 8, 8, 8]

/-- Same layout, `X` holding `(6, 9)`, the entrywise sum of the `X` of `memLA` and `memLA2`. -/
def memLA12 : Mem Int := memOfList [6, 9, 1, 2, 3, 4]

/-- Layout for `kronmult3` with `n = 2`, `nvec = 1`: `A1` at `0` (the swap matrix), `A2` at
`4` and `A3` at `8` (identity matrices), `X` at `12` holding `1, ..., 8`, `Y` at `20`, `W` at
`28`. -/
def memK3 : Mem Int := memOfList [0, 1, 1, 0, 1, 0, 0, 1, 1, 0, 0, 1, 1, 2, 3, 4, 5, 6, 7, 8]

/-- Same layout as `memK3`, all three factors being the `2 × 2` identity. -/
def memId3 : Mem Int := memOfList [1, 0, 0, 1, 1, 0, 0, 1, 1, 0, 0, 1, 1, 2, 3, 4, 5, 6, 7, 8]

/-- Layout for `kronmult6` with `n = 2`, `nvec = 1`: the factors `A1, ..., A6` at
`0, 4, ..., 20`, `X` at `24`, `Y` at `88`, `W` at `152` (64 cells each). -/
def memK6 : Mem Int := fun a => ((a % 5 : Nat) : Int) - 2

/-! ## Index accesses of `multiply_transpose`

The same two routines once more, now also recording every indexed access `buf[idx]` they make,
in program order; the memory they compute is the one of `transpose` and `multiply_transpose`. -/

/-- The four buffers `multiply_transpose` indexes. -/
inductive BufLA where
  | X
  | M
  | Y
  | M_transposed
  deriving DecidableEq

/-- One indexed access `buf[idx]`: a load, or a store when `write` is set. -/
structure Access where
  write : Bool
  buf : BufLA
  idx : Nat
  deriving DecidableEq

/-- Number of cells of each buffer of `multiply_transpose`, as its header comment states them:
`X` is `size_M × nb_col_X`, `M` is `size_M × size_M` of stride `stride_M`, `Y` is
`nb_col_X × size_M`, `M_transposed` is `size_M × size_M`. -/
def bufSize (nb_col_X size_M stride_M : Nat) : BufLA → Nat
  | BufLA.X => size_M * nb_col_X
  | BufLA.M => (size_M - 1) * stride_M + size_M
  | BufLA.Y => nb_col_X * size_M
  | BufLA.M_transposed => size_M * size_M

section Tracked

variable {R : Type} [CommRing R]

/-- `transpose` with its accesses recorded: each iteration loads
`input[colmajor(c, r, input_stride)]` and stores `output[colmajor(r, c, matrix_size)]`;
`inBuf` and `outBuf` name the buffers `input` and `output` point to. -/
def transpose_tracked (inBuf outBuf : BufLA) (input output matrix_size input_stride : Nat)
    (s : Mem R × List Access) : Mem R × List Access :=
  forLoop matrix_size (fun r s =>
    forLoop matrix_size (fun c s =>
      (store s.1 (output + colmajor r c matrix_size) (s.1 (input + colmajor c r input_stride)),
        s.2 ++ [Access.mk false inBuf (colmajor c r input_stride),
                Access.mk true outBuf (colmajor r c matrix_size)])) s) s

/-- `multiply_transpose` with its accesses recorded: the accesses of `transpose`, then for each
entry of `Y` the loads `X[colmajor(0,colX,size_M) + k]` and
`M_transposed[colmajor(0,rowM,size_M) + k]` of the dot product and the store
`Y[colmajor(colX,rowM,nb_col_X)]`. -/
def multiply_transpose_tracked (X nb_col_X M size_M stride_M Y M_transposed : Nat)
    (s : Mem R × List Access) : Mem R × List Access :=
  let s1 := transpose_tracked BufLA.M BufLA.M_transposed M M_transposed size_M stride_M s
  forLoop size_M (fun rowM s =>
    forLoop nb_col_X (fun colX s =>
      let d : R × List Access := forLoop size_M (fun k d =>
        (d.1 + s.1 (X + colmajor 0 colX size_M + k) *
            s.1 (M_transposed + colmajor 0 rowM size_M + k),
          d.2 ++ [Access.mk false BufLA.X (colmajor 0 colX size_M + k),
                  Access.mk false BufLA.M_transposed (colmajor 0 rowM size_M + k)])) (0, s.2)
      (store s.1 (Y + colmajor colX rowM nb_col_X) d.1,
        d.2 ++ [Access.mk true BufLA.Y (colmajor colX rowM nb_col_X)])) s) s1

end Tracked

/-! ## The degree-1 and degree-2 routines as the spec describes them -/

section LowDegrees

variable {R : Type} [CommRing R]

/-- Modelled from the spec: the degree-1 base case (`kronmult1`, not among the sources) "reduces
directly to one call into TransposeMultiply", `Y = X^T * A1^T`, with `A1` of size and stride `n`
and `nvec` columns in `X`; the scratch buffer of `multiply_transpose` is the workspace `W`. -/
def kronmult1 (n nvec A1_ X_ Y_ W_ : Nat) (mem : Mem R) : Mem R :=
  multiply_transpose X_ nvec A1_ n n Y_ W_ mem

/-- Modelled from the spec: the degree-2 instance of the recursive routine (header
`kronmult2.hpp`, not among the sources), written after `kronmult3` one degree down: for each of
the `nvec` vectors one `kgemm_nt` call `Wi(1:n, 1:n) = Xi(1:n, 1:n) * transpose(A1)` with
`mm = nn = kk = n` on the `n × n` view of leading dimension `n`, then the degree-1 base case on
`A2` with `nvec*n` vectors, reading `W`, writing `Y`, with `X` as workspace. -/
def kronmult2_steps (n nvec A1_ A2_ X_ Y_ W_ : Nat) (mem : Mem R) : Mem R :=
  let n2 := n * n
  let ldX := n2
  let ldW := n2
  let s1 := forLoop nvec (fun i0 s =>
    let i := i0 + 1
    let Xi_ := X_ + indx2f 1 i ldX
    let Wi_ := W_ + indx2f 1 i ldW
    let ldXi := n
    let ldWi := n
    let mm := n
    let nn := n
    let kk := n
    let alpha : R := 1
    let beta : R := 0
    let Ap := Xi_ + indx2f 1 1 ldXi
    let Bp := A1_
    let Cp := Wi_ + indx2f 1 1 ldWi
    let ld1 := ldXi
    let ld2 := n
    let ld3 := ldWi
    kgemm_nt mm nn kk alpha Ap ld1 Bp ld2 beta Cp ld3 s) mem
  let next_nvec := nvec * n
  kronmult1 n next_nvec A2_ W_ Y_ X_ s1

end LowDegrees

/-! ## Operand footprints of a logged call -/

/-- Modelled from the spec: the addresses a `kgemm_nt` call reads through its `A` operand under
the GEMM contract, the `mm × kk` entries `A(i, k)` of the column-major view of leading
dimension `ldA`. -/
def Call.readsA {R : Type} : Call R → Nat → Prop
  | Call.kgemm_nt mm _ kk _ A ldA _ _ _ _ _, x =>
      ∃ i, i < mm ∧ ∃ k, k < kk ∧ x = A + indx2f (i + 1) (k + 1) ldA
  | _, _ => False

/-- Modelled from the spec: the addresses a `kgemm_nt` call writes under the GEMM contract, the
`mm × nn` entries `C(i, j)` of the column-major view of leading dimension `ldC`. -/
def Call.writesC {R : Type} : Call R → Nat → Prop
  | Call.kgemm_nt mm nn _ _ _ _ _ _ _ C ldC, x =>
      ∃ i, i < mm ∧ ∃ j, j < nn ∧ x = C + indx2f (i + 1) (j + 1) ldC
  | _, _ => False

instance {R : Type} (c : Call R) (x : Nat) : Decidable (c.readsA x) := by
  cases c <;> unfold Call.readsA <;> infer_instance

instance {R : Type} (c : Call R) (x : Nat) : Decidable (c.writesC x) := by
  cases c <;> unfold Call.writesC <;> infer_instance

/-! ## The size arithmetic of `kronmult6` on 32-bit integers -/

/-- The value a 32-bit signed `int` holds after an operation whose exact result is `z`, with
wrap-around modulo `2^32` into `[-2^31, 2^31)`. -/
def wrap32 (z : Int) : Int := (z + 2 ^ 31) % 2 ^ 32 - 2 ^ 31

/-- The sizes `kronmult6` computes from `n` (lines 35-41). -/
structure Sizes6 where
  n2 : Int
  n4 : Int
  n5 : Int
  n6 : Int
  ldX : Int
  ldW : Int
  deriving DecidableEq

/-- Lines 35-41 of `kronmult6` on 32-bit `int`: `n2 = n*n`, `n4 = n2*n2`, `n5 = n*n4`,
`n6 = n2*n4`, `ldX = n6`, `ldW = n6`, every product wrapped. -/
def kronmult6_sizes32 (n : Int) : Sizes6 :=
  let n2 := wrap32 (n * n)
  let n4 := wrap32 (n2 * n2)
  let n5 := wrap32 (n * n4)
  let n6 := wrap32 (n2 * n4)
  let ldX := n6
  let ldW := n6
  { n2 := n2, n4 := n4, n5 := n5, n6 := n6, ldX := ldX, ldW := ldW }

/-! ## More concrete memories -/

/-- Layout for the degree-1 scenario, `n = 3`, `nvec = 2`: `X` at `0` holding `1, ..., 6`, `A1`
at `6` (the `3 × 3` identity), `Y` at `15`, the scratch buffer at `21`. -/
def memD1 : Mem Int := memOfList [1, 2, 3, 4, 5, 6, 1, 0, 0, 0, 1, 0, 0, 0, 1]

/-- Layout for the degree-2 scenario, `n = 2`, `nvec = 1`: `A1 = [1,0,0,1]` at `0`,
`A2 = [0,1,1,0]` at `4`, `X = [1,2,3,4]` at `8`, `Y` at `12`, `W` at `16`. -/
def memD2 : Mem Int := memOfList [1, 0, 0, 1, 0, 1, 1, 0, 1, 2, 3, 4]

/-! ## General lemmas on loops and stores -/

theorem store_same {R : Type} (m : Mem R) (p : Nat) (v : R) : store m p v p = v := by
  simp [store]

theorem store_other {R : Type} (m : Mem R) (p : Nat) (v : R) (a : Nat) (h : a ≠ p) :
    store m p v a = m a := by
  simp [store, h]

theorem forLoop_succ {σ : Type} (k : Nat) (body : Nat → σ → σ) (s : σ) :
    forLoop (k + 1) body s = body k (forLoop k body s) := rfl

theorem forLoop_zero {σ : Type} (body : Nat → σ → σ) (s : σ) : forLoop 0 body s = s := rfl

/-- A loop whose bodies only have to agree below the bound. -/
theorem forLoop_congr {σ : Type} (n : Nat) (b1 b2 : Nat → σ → σ) (s : σ)
    (h : ∀ k, k < n → ∀ t, b1 k t = b2 k t) : forLoop n b1 s = forLoop n b2 s := by
  induction n with
  | zero => rfl
  | succ k ih =>
    rw [forLoop_succ, forLoop_succ, ih (fun j hj t => h j (Nat.lt_succ_of_lt hj) t)]
    exact h k (Nat.lt_succ_self k) _

/-- An accumulation loop `acc += t k` from `0` is the sum of the terms. -/
theorem forLoop_sum {R : Type} [CommRing R] (n : Nat) (t : Nat → R) :
    forLoop n (fun k acc => acc + t k) 0 = ∑ k in Finset.range n, t k := by
  induction n with
  | zero => rfl
  | succ k ih => rw [forLoop_succ, ih, Finset.sum_range_succ]

/-- Loop of block writes.  If iteration `k` changes memory only inside its block `wr k`, the
blocks are pairwise disjoint, and what iteration `k` leaves in its block does not depend on the
content of any block, then after the loop every block holds what its iteration would have
written on the initial memory, and memory outside the blocks is unchanged. -/
theorem forLoop_blocks {R : Type} (n : Nat) (body : Nat → Mem R → Mem R)
    (wr : Nat → Nat → Prop)
    (hframe : ∀ k, k < n → ∀ m a, ¬ wr k a → body k m a = m a)
    (hdisj : ∀ i j a, i < n → j < n → wr i a → wr j a → i = j)
    (hstable : ∀ k a m m', k < n → wr k a →
      (∀ b, (∀ j, j < n → ¬ wr j b) → m b = m' b) → body k m a = body k m' a)
    (m0 : Mem R) :
    (∀ k a, k < n → wr k a → forLoop n body m0 a = body k m0 a) ∧
    (∀ a, (∀ j, j < n → ¬ wr j a) → forLoop n body m0 a = m0 a) := by
  have key : ∀ p, p ≤ n →
      (∀ k a, k < p → wr k a → forLoop p body m0 a = body k m0 a) ∧
      (∀ a, (∀ j, j < p → ¬ wr j a) → forLoop p body m0 a = m0 a) := by
    intro p
    induction p with
    | zero =>
      intro _
      exact ⟨fun k a hk _ => absurd hk (Nat.not_lt_zero k), fun a _ => rfl⟩
    | succ p ih =>
      intro hp
      have hp' : p < n := hp
      obtain ⟨ih1, ih2⟩ := ih (Nat.le_of_lt hp')
      constructor
      · intro k a hk hw
        rw [forLoop_succ]
        rcases Nat.lt_succ_iff_lt_or_eq.mp hk with hlt | heq
        · have hne : ¬ wr p a := fun hwp => by
            have := hdisj k p a (Nat.lt_trans hlt hp') hp' hw hwp
            omega
          rw [hframe p hp' _ a hne]
          exact ih1 k a hlt hw
        · subst heq
          apply hstable k a _ _ hp' hw
          intro b hb
          exact ih2 b (fun j hj => hb j (Nat.lt_trans hj hp'))
      · intro a ha
        rw [forLoop_succ, hframe p hp' _ a (ha p (Nat.lt_succ_self p))]
        exact ih2 a (fun j hj => ha j (Nat.lt_succ_of_lt hj))
  exact key n (Nat.le_refl n)

/-- Column-major addressing is injective on rows below the stride. -/
theorem add_mul_inj {ld i j i' j' : Nat} (hi : i < ld) (hi' : i' < ld)
    (h : i + j * ld = i' + j' * ld) : i = i' ∧ j = j' := by
  have h1 : (i + j * ld) % ld = (i' + j' * ld) % ld := by rw [h]
  rw [Nat.add_mul_mod_self_right, Nat.add_mul_mod_self_right, Nat.mod_eq_of_lt hi,
    Nat.mod_eq_of_lt hi'] at h1
  subst h1
  have h2 : j * ld = j' * ld := by omega
  exact ⟨rfl, Nat.eq_of_mul_eq_mul_right (by omega) h2⟩

/-- A column-major offset of an in-range entry lies inside the footprint of the view. -/
theorem add_mul_lt {ld rows cols i j : Nat} (hi : i < rows) (hj : j < cols) :
    i + j * ld < (cols - 1) * ld + rows := by
  have h1 : j * ld ≤ (cols - 1) * ld := Nat.mul_le_mul_right ld (by omega)
  omega

/-- A loop of stores at pairwise distinct addresses, whose stored values do not depend on the
cells the loop writes: every cell written holds the value computed on the initial memory, and
every other cell is unchanged. -/
theorem forLoop1_store {R : Type} (n : Nat) (addr : Nat → Nat) (val : Nat → Mem R → R)
    (hinj : ∀ j j', j < n → j' < n → addr j = addr j' → j = j')
    (hval : ∀ j m m', j < n → (∀ b, (∀ j', j' < n → b ≠ addr j') → m b = m' b) →
      val j m = val j m')
    (m0 : Mem R) :
    (∀ j, j < n → forLoop n (fun j m => store m (addr j) (val j m)) m0 (addr j) = val j m0) ∧
    (∀ a, (∀ j, j < n → a ≠ addr j) →
      forLoop n (fun j m => store m (addr j) (val j m)) m0 a = m0 a) := by
  have h := forLoop_blocks n (fun j m => store m (addr j) (val j m)) (fun j a => a = addr j)
    (fun k _ m a ha => store_other m _ _ a ha)
    (fun i j a hi hj hai haj => hinj i j hi hj (hai.symm.trans haj))
    (fun k a m m' hk ha hm => by
      subst ha
      simp only [store_same]
      exact hval k m m' hk hm)
    m0
  refine ⟨fun j hj => ?_, h.2⟩
  rw [h.1 j (addr j) hj rfl, store_same]

/-- The two-level version of `forLoop1_store`, for a nest of two loops around one store. -/
theorem forLoop2_store {R : Type} (n1 n2 : Nat) (addr : Nat → Nat → Nat)
    (val : Nat → Nat → Mem R → R)
    (hinj : ∀ i j i' j', i < n1 → j < n2 → i' < n1 → j' < n2 → addr i j = addr i' j' →
      i = i' ∧ j = j')
    (hval : ∀ i j m m', i < n1 → j < n2 →
      (∀ b, (∀ i' j', i' < n1 → j' < n2 → b ≠ addr i' j') → m b = m' b) →
      val i j m = val i j m')
    (m0 : Mem R) :
    (∀ i j, i < n1 → j < n2 →
      forLoop n1 (fun i m => forLoop n2 (fun j m => store m (addr i j) (val i j m)) m) m0
        (addr i j) = val i j m0) ∧
    (∀ a, (∀ i j, i < n1 → j < n2 → a ≠ addr i j) →
      forLoop n1 (fun i m => forLoop n2 (fun j m => store m (addr i j) (val i j m)) m) m0 a
        = m0 a) := by
  have inner : ∀ i, i < n1 → ∀ m : Mem R,
      (∀ j, j < n2 →
        forLoop n2 (fun j m => store m (addr i j) (val i j m)) m (addr i j) = val i j m) ∧
      (∀ a, (∀ j, j < n2 → a ≠ addr i j) →
        forLoop n2 (fun j m => store m (addr i j) (val i j m)) m a = m a) := by
    intro i hi m
    apply forLoop1_store n2 (addr i) (val i)
    · intro j j' hj hj' h
      exact (hinj i j i j' hi hj hi hj' h).2
    · intro j m m' hj hm
      apply hval i j m m' hi hj
      intro b hb
      exact hm b (fun j' hj' => hb i j' hi hj')
  have h := forLoop_blocks n1
    (fun i m => forLoop n2 (fun j m => store m (addr i j) (val i j m)) m)
    (fun i a => ∃ j, j < n2 ∧ a = addr i j)
    (fun k hk m a ha => (inner k hk m).2 a (fun j hj hj' => ha ⟨j, hj, hj'⟩))
    (fun i i' a hi hi' hai hai' => by
      obtain ⟨j, hj, rfl⟩ := hai
      obtain ⟨j', hj', h⟩ := hai'
      exact (hinj i j i' j' hi hj hi' hj' h).1)
    (fun k a m m' hk ha hm => by
      obtain ⟨j, hj, rfl⟩ := ha
      show forLoop n2 _ m _ = forLoop n2 _ m' _
      rw [(inner k hk m).1 j hj, (inner k hk m').1 j hj]
      apply hval k j m m' hk hj
      intro b hb
      exact hm b (fun i' hi' hex => by
        obtain ⟨j', hj', h⟩ := hex
        exact hb i' j' hi' hj' h))
    m0
  constructor
  · intro i j hi hj
    rw [h.1 i (addr i j) hi ⟨j, hj, rfl⟩]
    exact (inner i hi m0).1 j hj
  · intro a ha
    apply h.2 a
    intro i hi hex
    obtain ⟨j, hj, h'⟩ := hex
    exact ha i j hi hj h'

/-! ## `linear_algebra.hpp`: transpose and multiply_transpose -/

theorem pred_mul_add_self (s : Nat) : (s - 1) * s + s = s * s := by
  cases s with
  | zero => rfl
  | succ k => simp [Nat.succ_mul]

/-- Offsets of a dense `rows × cols` column-major view stay below `rows * cols`. -/
theorem add_mul_lt_mul {rows cols i j : Nat} (hi : i < rows) (hj : j < cols) :
    i + j * rows < rows * cols := by
  have h1 : i + j * rows < (cols - 1) * rows + rows := add_mul_lt hi hj
  have h2 : (cols - 1) * rows + rows = rows * cols := by
    cases cols with
    | zero => omega
    | succ k => simp [Nat.succ_mul, Nat.mul_succ, Nat.mul_comm]
  omega

/-- What `transpose` leaves in memory: the output holds the transposed input, and nothing
outside the `matrix_size^2` cells of the output changes. -/
theorem transpose_spec {R : Type} (input output matrix_size input_stride : Nat) (m : Mem R)
    (hsep : sep input ((matrix_size - 1) * input_stride + matrix_size) output
      (matrix_size * matrix_size)) :
    (∀ r c, r < matrix_size → c < matrix_size →
      transpose input output matrix_size input_stride m (output + (r + c * matrix_size))
        = m (input + (c + r * input_stride))) ∧
    (∀ a, (a < output ∨ output + matrix_size * matrix_size ≤ a) →
      transpose input output matrix_size input_stride m a = m a) := by
  have h := forLoop2_store matrix_size matrix_size
    (fun r c => output + colmajor r c matrix_size)
    (fun r c (m : Mem R) => m (input + colmajor c r input_stride))
    (fun i j i' j' hi _ hi' _ h => by
      simp only [colmajor] at h
      have h' := add_mul_inj hi hi' (Nat.add_left_cancel h)
      exact h')
    (fun i j m m' hi hj hm => by
      apply hm
      intro i' j' hi' hj'
      simp only [colmajor]
      have h1 : j + i * input_stride < (matrix_size - 1) * input_stride + matrix_size :=
        add_mul_lt hj hi
      have h2 : i' + j' * matrix_size < matrix_size * matrix_size := add_mul_lt_mul hi' hj'
      unfold sep at hsep
      omega)
    m
  constructor
  · intro r c hr hc
    exact h.1 r c hr hc
  · intro a ha
    apply h.2 a
    intro i j hi hj
    simp only [colmajor]
    have h2 : i + j * matrix_size < matrix_size * matrix_size := add_mul_lt_mul hi hj
    omega

section LinearAlgebraProofs

variable {R : Type} [CommRing R]

/-- What `multiply_transpose` leaves in `Y`: `Y = X^T * M^T`, entry by entry, in terms of the
memory before the call; and nothing outside `Y` and the scratch buffer changes. -/
theorem multiply_transpose_spec (X nb_col_X M size_M stride_M Y M_transposed : Nat)
    (m : Mem R)
    (hMT : sep M ((size_M - 1) * stride_M + size_M) M_transposed (size_M * size_M))
    (hXT : sep X (size_M * nb_col_X) M_transposed (size_M * size_M))
    (hXY : sep X (size_M * nb_col_X) Y (nb_col_X * size_M))
    (hYT : sep Y (nb_col_X * size_M) M_transposed (size_M * size_M)) :
    (∀ i j, i < nb_col_X → j < size_M →
      multiply_transpose X nb_col_X M size_M stride_M Y M_transposed m (Y + (i + j * nb_col_X))
        = ∑ k in Finset.range size_M, m (X + (k + i * size_M)) * m (M + (j + k * stride_M))) ∧
    (∀ a, (a < Y ∨ Y + nb_col_X * size_M ≤ a) →
      (a < M_transposed ∨ M_transposed + size_M * size_M ≤ a) →
      multiply_transpose X nb_col_X M size_M stride_M Y M_transposed m a = m a) := by
  obtain ⟨ht1, ht2⟩ := transpose_spec M M_transposed size_M stride_M m hMT
  have hvaleq : ∀ (rowM colX : Nat) (mem : Mem R),
      forLoop size_M (fun k dotprod =>
        dotprod + mem (X + colmajor 0 colX size_M + k) *
          mem (M_transposed + colmajor 0 rowM size_M + k)) 0
      = ∑ k in Finset.range size_M, mem (X + (k + colX * size_M)) *
          mem (M_transposed + (k + rowM * size_M)) := by
    intro rowM colX mem
    rw [forLoop_sum]
    apply Finset.sum_congr rfl
    intro k _
    have e1 : X + colmajor 0 colX size_M + k = X + (k + colX * size_M) := by
      simp only [colmajor]; omega
    have e2 : M_transposed + colmajor 0 rowM size_M + k = M_transposed + (k + rowM * size_M) := by
      simp only [colmajor]; omega
    rw [e1, e2]
  have h := forLoop2_store size_M nb_col_X
    (fun rowM colX => Y + colmajor colX rowM nb_col_X)
    (fun rowM colX (mem : Mem R) =>
      forLoop size_M (fun k dotprod =>
        dotprod + mem (X + colmajor 0 colX size_M + k) *
          mem (M_transposed + colmajor 0 rowM size_M + k)) 0)
    (fun i j i' j' _ hj _ hj' h => by
      simp only [colmajor] at h
      have h' := add_mul_inj hj hj' (Nat.add_left_cancel h)
      exact ⟨h'.2, h'.1⟩)
    (fun i j m m' hi hj hm => by
      simp only [hvaleq]
      apply Finset.sum_congr rfl
      intro k hk
      have hk' : k < size_M := Finset.mem_range.mp hk
      have hx : m (X + (k + j * size_M)) = m' (X + (k + j * size_M)) := by
        apply hm
        intro i' j' hi' hj'
        simp only [colmajor]
        have h1 : k + j * size_M < size_M * nb_col_X := add_mul_lt_mul hk' hj
        have h2 : j' + i' * nb_col_X < nb_col_X * size_M := add_mul_lt_mul hj' hi'
        unfold sep at hXY
        omega
      have ht : m (M_transposed + (k + i * size_M)) = m' (M_transposed + (k + i * size_M)) := by
        apply hm
        intro i' j' hi' hj'
        simp only [colmajor]
        have h1 : k + i * size_M < size_M * size_M := add_mul_lt_mul hk' hi
        have h2 : j' + i' * nb_col_X < nb_col_X * size_M := add_mul_lt_mul hj' hi'
        unfold sep at hYT
        omega
      rw [hx, ht])
    (transpose M M_transposed size_M stride_M m)
  constructor
  · intro i j hi hj
    have h1 := h.1 j i hj hi
    simp only [colmajor] at h1
    simp only [multiply_transpose, colmajor]
    rw [h1]
    have h2 := hvaleq j i (transpose M M_transposed size_M stride_M m)
    simp only [colmajor] at h2
    rw [h2]
    apply Finset.sum_congr rfl
    intro k hk
    have hk' : k < size_M := Finset.mem_range.mp hk
    rw [ht1 k j hk' hj]
    have hx : transpose M M_transposed size_M stride_M m (X + (k + i * size_M))
        = m (X + (k + i * size_M)) := by
      apply ht2
      have h1 : k + i * size_M < size_M * nb_col_X := add_mul_lt_mul hk' hi
      unfold sep at hXT
      omega
    rw [hx]
  · intro a haY haT
    have h1 := h.2 a (fun i j hi hj => by
      simp only [colmajor]
      have h2 : j + i * nb_col_X < nb_col_X * size_M := add_mul_lt_mul hj hi
      omega)
    simp only [multiply_transpose]
    rw [h1]
    exact ht2 a haT

end LinearAlgebraProofs

section BlasProofs

variable {R : Type} [CommRing R]

/-- What `dgemm_` leaves in `C` when both operands are flagged transposed. -/
theorem dgemm_TT_spec (m n k : Nat) (alpha : R) (A lda B ldb : Nat) (beta : R) (C ldc : Nat)
    (mem : Mem R) (hld : m ≤ ldc) (i j : Nat) (hi : i < m) (hj : j < n) :
    dgemm_ 'T' 'T' m n k alpha A lda B ldb beta C ldc mem (C + (i + j * ldc))
      = alpha * (∑ l in Finset.range k, mem (A + (l + i * lda)) * mem (B + (j + l * ldb)))
        + beta * mem (C + (i + j * ldc)) := by
  have h := forLoop2_store n m (fun j i => C + (i + j * ldc))
    (fun j i (_ : Mem R) =>
      alpha * (∑ l in Finset.range k, mem (A + (l + i * lda)) * mem (B + (j + l * ldb)))
        + beta * mem (C + (i + j * ldc)))
    (fun j i j' i' _ hi _ hi' h => by
      have h' := add_mul_inj (Nat.lt_of_lt_of_le hi hld) (Nat.lt_of_lt_of_le hi' hld)
        (Nat.add_left_cancel h)
      exact ⟨h'.2, h'.1⟩)
    (fun _ _ _ _ _ _ _ => rfl)
    mem
  have h1 := h.1 j i hj hi
  simp only [dgemm_, if_true]
  exact h1

/-- What `multiply_transpose_blas` leaves in `Y`: `Y = X^T * M^T`, entry by entry. -/
theorem multiply_transpose_blas_spec (value : Bool) (X nb_col_X M size_M stride_M Y : Nat)
    (mem : Mem R) (i j : Nat) (hi : i < nb_col_X) (hj : j < size_M) :
    multiply_transpose_blas value X nb_col_X M size_M stride_M Y mem (Y + (i + j * nb_col_X))
      = ∑ k in Finset.range size_M, mem (X + (k + i * size_M)) * mem (M + (j + k * stride_M)) := by
  have h := dgemm_TT_spec nb_col_X size_M size_M (1 : R) X size_M M stride_M (0 : R) Y nb_col_X
    mem (Nat.le_refl _) i j hi hj
  cases value <;> simp [multiply_transpose_blas, sgemm_, h]

end BlasProofs

/-! ## Claims on `linear_algebra.hpp` -/

section LinearAlgebraClaims

variable {R : Type} [CommRing R]

end LinearAlgebraClaims

section FirstFactor

variable {R : Type} [CommRing R]

theorem indx2f_succ (i j ld : Nat) : indx2f (i + 1) (j + 1) ld = i + j * ld := by
  simp [indx2f]

/-- What `kgemm_nt` leaves in memory: the `mm × nn` entries of `C` hold
`alpha*A*B^T + beta*C`, and no other cell changes. -/
theorem kgemm_nt_spec (mm nn kk : Nat) (alpha : R) (A_ ldA B_ ldB : Nat) (beta : R)
    (C_ ldC : Nat) (mem : Mem R) (hld : mm ≤ ldC) :
    (∀ i j, i < mm → j < nn →
      kgemm_nt mm nn kk alpha A_ ldA B_ ldB beta C_ ldC mem (C_ + (i + j * ldC))
        = alpha * (∑ k in Finset.range kk, mem (A_ + (i + k * ldA)) * mem (B_ + (j + k * ldB)))
          + beta * mem (C_ + (i + j * ldC))) ∧
    (∀ a, (∀ i j, i < mm → j < nn → a ≠ C_ + (i + j * ldC)) →
      kgemm_nt mm nn kk alpha A_ ldA B_ ldB beta C_ ldC mem a = mem a) := by
  have h := forLoop2_store nn mm (fun j i => C_ + (i + j * ldC))
    (fun j i (_ : Mem R) =>
      alpha * (∑ k in Finset.range kk, mem (A_ + (i + k * ldA)) * mem (B_ + (j + k * ldB)))
        + beta * mem (C_ + (i + j * ldC)))
    (fun j i j' i' _ hi _ hi' h => by
      have h' := add_mul_inj (Nat.lt_of_lt_of_le hi hld) (Nat.lt_of_lt_of_le hi' hld)
        (Nat.add_left_cancel h)
      exact ⟨h'.2, h'.1⟩)
    (fun _ _ _ _ _ _ _ => rfl)
    mem
  constructor
  · intro i j hi hj
    have h1 := h.1 j i hj hi
    simp only [kgemm_nt, indx2f_succ]
    exact h1
  · intro a ha
    have h2 := h.2 a (fun j i hj hi => ha i j hi hj)
    simp only [kgemm_nt, indx2f_succ]
    exact h2

/-- The first-factor loop shared by `kronmult3` (`q = n^2`) and `kronmult6` (`q = n^5`):
vector `v` of `X`, viewed as a `q × n` array, is multiplied by `A1^T` into vector `v` of `W`.
If `W` overlaps neither `X` nor `A1`, then after the loop
`W[a + q*b + q*n*v] = sum over k < n of X[a + q*k + q*n*v] * A1[b + lda*k]`, and no cell
outside `W[0 .. q*n*nvec - 1]` changes. -/
theorem first_factor_spec (q n nvec lda A1_ X_ W_ : Nat) (m : Mem R)
    (hXW : sep X_ (q * n * nvec) W_ (q * n * nvec))
    (hAW : sep A1_ ((n - 1) * lda + n) W_ (q * n * nvec)) :
    (∀ v a b, v < nvec → a < q → b < n →
      forLoop nvec (fun i0 s =>
        kgemm_nt q n n (1 : R) (X_ + i0 * (q * n)) q A1_ lda (0 : R) (W_ + i0 * (q * n)) q s) m
        (W_ + (a + q * b + q * n * v))
      = ∑ k in Finset.range n, m (X_ + (a + q * k + q * n * v)) * m (A1_ + (b + lda * k))) ∧
    (∀ x, (x < W_ ∨ W_ + q * n * nvec ≤ x) →
      forLoop nvec (fun i0 s =>
        kgemm_nt q n n (1 : R) (X_ + i0 * (q * n)) q A1_ lda (0 : R) (W_ + i0 * (q * n)) q s) m x
      = m x) := by
  -- closed form of one iteration, on any memory
  have hbody : ∀ (v : Nat) (s : Mem R) (a b : Nat), a < q → b < n →
      kgemm_nt q n n (1 : R) (X_ + v * (q * n)) q A1_ lda (0 : R) (W_ + v * (q * n)) q s
        (W_ + v * (q * n) + (a + b * q))
      = ∑ k in Finset.range n, s (X_ + v * (q * n) + (a + k * q)) * s (A1_ + (b + k * lda)) := by
    intro v s a b ha hb
    rw [(kgemm_nt_spec q n n (1 : R) (X_ + v * (q * n)) q A1_ lda (0 : R) (W_ + v * (q * n)) q s
      (Nat.le_refl q)).1 a b ha hb]
    simp
  have hin : ∀ v a b, v < nvec → a < q → b < n →
      v * (q * n) + (a + b * q) < q * n * nvec := by
    intro v a b hv ha hb
    have h1 : a + b * q < q * n := add_mul_lt_mul ha hb
    have h2 : (a + b * q) + v * (q * n) < (q * n) * nvec := add_mul_lt_mul h1 hv
    omega
  have h := forLoop_blocks nvec
    (fun i0 s =>
      kgemm_nt q n n (1 : R) (X_ + i0 * (q * n)) q A1_ lda (0 : R) (W_ + i0 * (q * n)) q s)
    (fun v x => ∃ a b, a < q ∧ b < n ∧ x = W_ + v * (q * n) + (a + b * q))
    (fun v _ s x hx =>
      (kgemm_nt_spec q n n (1 : R) (X_ + v * (q * n)) q A1_ lda (0 : R) (W_ + v * (q * n)) q s
        (Nat.le_refl q)).2 x (fun a b ha hb hxe => hx ⟨a, b, ha, hb, hxe⟩))
    (fun v v' x _ _ hx hx' => by
      obtain ⟨a, b, ha, hb, rfl⟩ := hx
      obtain ⟨a', b', ha', hb', h⟩ := hx'
      have h1 : a + b * q < q * n := add_mul_lt_mul ha hb
      have h2 : a' + b' * q < q * n := add_mul_lt_mul ha' hb'
      have h3 : (a + b * q) + v * (q * n) = (a' + b' * q) + v' * (q * n) := by omega
      exact (add_mul_inj h1 h2 h3).2)
    (fun v x s s' hv hx hs => by
      obtain ⟨a, b, ha, hb, rfl⟩ := hx
      beta_reduce
      rw [hbody v s a b ha hb, hbody v s' a b ha hb]
      apply Finset.sum_congr rfl
      intro k hk
      have hk' : k < n := Finset.mem_range.mp hk
      have e1 : s (X_ + v * (q * n) + (a + k * q)) = s' (X_ + v * (q * n) + (a + k * q)) := by
        apply hs
        intro v' hv' hex
        obtain ⟨a', b', ha', hb', h⟩ := hex
        have h1 := hin v a k hv ha hk'
        have h2 := hin v' a' b' hv' ha' hb'
        unfold sep at hXW
        omega
      have e2 : s (A1_ + (b + k * lda)) = s' (A1_ + (b + k * lda)) := by
        apply hs
        intro v' hv' hex
        obtain ⟨a', b', ha', hb', h⟩ := hex
        have h1 : b + k * lda < (n - 1) * lda + n := add_mul_lt hb hk'
        have h2 := hin v' a' b' hv' ha' hb'
        unfold sep at hAW
        omega
      rw [e1, e2])
    m
  constructor
  · intro v a b hv ha hb
    have e : W_ + (a + q * b + q * n * v) = W_ + v * (q * n) + (a + b * q) := by
      rw [Nat.mul_comm q b, Nat.mul_comm (q * n) v]; omega
    rw [e, h.1 v _ hv ⟨a, b, ha, hb, rfl⟩, hbody v m a b ha hb]
    apply Finset.sum_congr rfl
    intro k _
    have e1 : X_ + v * (q * n) + (a + k * q) = X_ + (a + q * k + q * n * v) := by
      rw [Nat.mul_comm q k, Nat.mul_comm (q * n) v]; omega
    rw [e1, Nat.mul_comm k lda]
  · intro x hx
    apply h.2 x
    intro v hv hex
    obtain ⟨a, b, ha, hb, h⟩ := hex
    have h2 := hin v a b hv ha hb
    omega

end FirstFactor

/-- Offsets `a + q*k` with `a < q`, `k < n` stay below `q * n`. -/
theorem add_mul_lt_mul_left {q n a k : Nat} (ha : a < q) (hk : k < n) : a + q * k < q * n := by
  rw [Nat.mul_comm q k]
  exact add_mul_lt_mul ha hk

/-- The five-digit offset of `kronApply5` stays below `n^5`. -/
theorem digits5_lt {n k1 k2 k3 k4 k5 : Nat} (h1 : k1 < n) (h2 : k2 < n) (h3 : k3 < n)
    (h4 : k4 < n) (h5 : k5 < n) :
    k5 + n * k4 + n ^ 2 * k3 + n ^ 3 * k2 + n ^ 4 * k1 < n ^ 5 := by
  have a2 : k5 + n * k4 < n ^ 2 := by
    have := add_mul_lt_mul_left h5 h4
    rwa [← pow_two] at this
  have a3 : k5 + n * k4 + n ^ 2 * k3 < n ^ 3 := by
    have := add_mul_lt_mul_left a2 h3
    rwa [← pow_succ] at this
  have a4 : k5 + n * k4 + n ^ 2 * k3 + n ^ 3 * k2 < n ^ 4 := by
    have := add_mul_lt_mul_left a3 h2
    rwa [← pow_succ] at this
  have a5 := add_mul_lt_mul_left a4 h1
  rwa [← pow_succ] at a5

/-- Frame of a first-factor loop lifted to a factor matrix: an `n × n` matrix of leading
dimension `n` that the written buffer does not overlap reads the same before and after. -/
theorem matAt_frame {R : Type} (s m : Mem R) (A n W len : Nat)
    (hframe : ∀ x, (x < W ∨ W + len ≤ x) → s x = m x)
    (hsep : sep A (n * n) W len) (i k : Nat) (hi : i < n) (hk : k < n) :
    matAt s A n i k = matAt m A n i k := by
  unfold matAt
  apply hframe
  have h1 : i + n * k < n * n := add_mul_lt_mul_left hi hk
  unfold sep at hsep
  omega

section KronProofs

variable {R : Type} [CommRing R]

/-- The first-factor loop of `kronmult3` is the shared loop with `q = n^2`, `lda = n`. -/
theorem kronmult3_loop_eq (n nvec A1_ X_ W_ : Nat) (m : Mem R) :
    kronmult3_loop kgemm_nt n nvec A1_ X_ W_ m
      = forLoop nvec (fun i0 s =>
          kgemm_nt (n ^ 2) n n (1 : R) (X_ + i0 * (n ^ 2 * n)) (n ^ 2) A1_ n (0 : R)
            (W_ + i0 * (n ^ 2 * n)) (n ^ 2) s) m := by
  have e1 : n * n = n ^ 2 := by ring
  have e2 : n * n ^ 2 = n ^ 2 * n := by ring
  simp only [kronmult3_loop, indx2f, Nat.sub_self, Nat.zero_mul, Nat.add_zero, Nat.zero_add,
    Nat.add_sub_cancel, e1, e2]

/-- The first-factor loop of `kronmult6` is the shared loop with `q = n^5` and the leading
dimension `lda` chosen from `lda_in`. -/
theorem kronmult6_loop_eq (n nvec A1_ X_ W_ lda_in : Nat) (m : Mem R) :
    kronmult6_loop kgemm_nt n nvec A1_ X_ W_ lda_in m
      = forLoop nvec (fun i0 s =>
          kgemm_nt (n ^ 5) n n (1 : R) (X_ + i0 * (n ^ 5 * n)) (n ^ 5) A1_
            (if lda_in = 0 then n else lda_in) (0 : R)
            (W_ + i0 * (n ^ 5 * n)) (n ^ 5) s) m := by
  have e1 : n * (n * n * (n * n)) = n ^ 5 := by ring
  have e2 : n * n * (n * n * (n * n)) = n ^ 5 * n := by ring
  simp only [kronmult6_loop, indx2f, Nat.sub_self, Nat.zero_mul, Nat.add_zero, Nat.zero_add,
    Nat.add_sub_cancel, e1, e2]

/-- What the first-factor loop of `kronmult3` leaves in memory. -/
theorem kronmult3_loop_spec (n nvec A1_ X_ W_ : Nat) (m : Mem R)
    (hXW : sep X_ (n ^ 3 * nvec) W_ (n ^ 3 * nvec))
    (hAW : sep A1_ (n * n) W_ (n ^ 3 * nvec)) :
    (∀ v a b, v < nvec → a < n ^ 2 → b < n →
      kronmult3_loop kgemm_nt n nvec A1_ X_ W_ m (W_ + (a + n ^ 2 * b + n ^ 3 * v))
      = ∑ k in Finset.range n, m (X_ + (a + n ^ 2 * k + n ^ 3 * v)) * m (A1_ + (b + n * k))) ∧
    (∀ x, (x < W_ ∨ W_ + n ^ 3 * nvec ≤ x) →
      kronmult3_loop kgemm_nt n nvec A1_ X_ W_ m x = m x) := by
  have e3 : n ^ 3 = n ^ 2 * n := by ring
  rw [e3] at hXW hAW ⊢
  rw [← pred_mul_add_self n] at hAW
  rw [kronmult3_loop_eq]
  exact first_factor_spec (n ^ 2) n nvec n A1_ X_ W_ m hXW hAW

/-- What the first-factor loop of `kronmult6` leaves in memory; `L` is the leading dimension
of `A1`, `n` when `lda_in = 0` and `lda_in` otherwise. -/
theorem kronmult6_loop_spec (n nvec A1_ X_ W_ lda_in L : Nat) (m : Mem R)
    (hL : L = if lda_in = 0 then n else lda_in)
    (hXW : sep X_ (n ^ 6 * nvec) W_ (n ^ 6 * nvec))
    (hAW : sep A1_ ((n - 1) * L + n) W_ (n ^ 6 * nvec)) :
    (∀ v a b, v < nvec → a < n ^ 5 → b < n →
      kronmult6_loop kgemm_nt n nvec A1_ X_ W_ lda_in m (W_ + (a + n ^ 5 * b + n ^ 6 * v))
      = ∑ k in Finset.range n, m (X_ + (a + n ^ 5 * k + n ^ 6 * v)) * m (A1_ + (b + L * k))) ∧
    (∀ x, (x < W_ ∨ W_ + n ^ 6 * nvec ≤ x) →
      kronmult6_loop kgemm_nt n nvec A1_ X_ W_ lda_in m x = m x) := by
  have e6 : n ^ 6 = n ^ 5 * n := by ring
  rw [e6] at hXW hAW ⊢
  rw [kronmult6_loop_eq, ← hL]
  exact first_factor_spec (n ^ 5) n nvec L A1_ X_ W_ m hXW hAW

/-- What `kronmult2` leaves in `Y`. -/
theorem kronmult2_spec (n nvec A1_ A2_ X_ Y_ W_ : Nat) (mem : Mem R) (c r : Nat)
    (hc : c < nvec) (hr : r < n ^ 2) :
    kronmult2 n nvec A1_ A2_ X_ Y_ W_ mem (Y_ + (r + n ^ 2 * c))
      = kronApply2 n (matAt mem A1_ n) (matAt mem A2_ n)
          (fun p => mem (X_ + (p + n ^ 2 * c))) r := by
  have h := forLoop2_store nvec (n ^ 2) (fun c r => Y_ + (r + n ^ 2 * c))
    (fun c r (_ : Mem R) => kronApply2 n (matAt mem A1_ n) (matAt mem A2_ n)
          (fun p => mem (X_ + (p + n ^ 2 * c))) r)
    (fun c r c' r' _ hr _ hr' h => by
      beta_reduce at h
      rw [Nat.mul_comm _ c, Nat.mul_comm _ c'] at h
      have h' := add_mul_inj hr hr' (Nat.add_left_cancel h)
      exact ⟨h'.2, h'.1⟩)
    (fun _ _ _ _ _ _ _ => rfl)
    mem
  exact h.1 c r hc hr

/-- What `kronmult5` leaves in `Y`. -/
theorem kronmult5_spec (n nvec A1_ A2_ A3_ A4_ A5_ X_ Y_ W_ lda_in : Nat) (mem : Mem R)
    (c r : Nat) (hc : c < nvec) (hr : r < n ^ 5) :
    kronmult5 n nvec A1_ A2_ A3_ A4_ A5_ X_ Y_ W_ lda_in mem (Y_ + (r + n ^ 5 * c))
      = kronApply5 n (matAt mem A1_ (if lda_in = 0 then n else lda_in)) (matAt mem A2_ n)
          (matAt mem A3_ n) (matAt mem A4_ n) (matAt mem A5_ n)
          (fun p => mem (X_ + (p + n ^ 5 * c))) r := by
  have h := forLoop2_store nvec (n ^ 5) (fun c r => Y_ + (r + n ^ 5 * c))
    (fun c r (_ : Mem R) =>
      kronApply5 n (matAt mem A1_ (if lda_in = 0 then n else lda_in)) (matAt mem A2_ n)
          (matAt mem A3_ n) (matAt mem A4_ n) (matAt mem A5_ n)
          (fun p => mem (X_ + (p + n ^ 5 * c))) r)
    (fun c r c' r' _ hr _ hr' h => by
      beta_reduce at h
      rw [Nat.mul_comm _ c, Nat.mul_comm _ c'] at h
      have h' := add_mul_inj hr hr' (Nat.add_left_cancel h)
      exact ⟨h'.2, h'.1⟩)
    (fun _ _ _ _ _ _ _ => rfl)
    mem
  exact h.1 c r hc hr

/-- `kronApply5` only looks at the factors inside `n × n` and at the vector below `n^5`. -/
theorem kronApply5_congr (n : Nat) (b1 b2 b3 b4 b5 c1 c2 c3 c4 c5 : Nat → Nat → R)
    (x y : Nat → R) (r : Nat) (hr : r < n ^ 5)
    (h1 : ∀ i k, i < n → k < n → b1 i k = c1 i k)
    (h2 : ∀ i k, i < n → k < n → b2 i k = c2 i k)
    (h3 : ∀ i k, i < n → k < n → b3 i k = c3 i k)
    (h4 : ∀ i k, i < n → k < n → b4 i k = c4 i k)
    (h5 : ∀ i k, i < n → k < n → b5 i k = c5 i k)
    (hx : ∀ p, p < n ^ 5 → x p = y p) :
    kronApply5 n b1 b2 b3 b4 b5 x r = kronApply5 n c1 c2 c3 c4 c5 y r := by
  have hn : 0 < n := by
    rcases Nat.eq_zero_or_pos n with h0 | h0
    · subst h0; simp at hr
    · exact h0
  have d1 : r / n ^ 4 < n := by
    apply Nat.div_lt_of_lt_mul
    have : n ^ 4 * n = n ^ 5 := by ring
    omega
  unfold kronApply5
  refine Finset.sum_congr rfl (fun k1 hk1 => ?_)
  refine Finset.sum_congr rfl (fun k2 hk2 => ?_)
  refine Finset.sum_congr rfl (fun k3 hk3 => ?_)
  refine Finset.sum_congr rfl (fun k4 hk4 => ?_)
  refine Finset.sum_congr rfl (fun k5 hk5 => ?_)
  rw [Finset.mem_range] at hk1 hk2 hk3 hk4 hk5
  rw [h1 _ _ d1 hk1, h2 _ _ (Nat.mod_lt _ hn) hk2, h3 _ _ (Nat.mod_lt _ hn) hk3,
    h4 _ _ (Nat.mod_lt _ hn) hk4, h5 _ _ (Nat.mod_lt _ hn) hk5,
    hx _ (digits5_lt hk1 hk2 hk3 hk4 hk5)]

/-- `kronApply5` is linear in the vector it is applied to. -/
theorem kronApply5_linear (n : Nat) (b1 b2 b3 b4 b5 : Nat → Nat → R) (s : Finset Nat)
    (a : Nat → R) (x : Nat → Nat → R) (r : Nat) :
    kronApply5 n b1 b2 b3 b4 b5 (fun p => ∑ k in s, x k p * a k) r
      = ∑ k in s, a k * kronApply5 n b1 b2 b3 b4 b5 (x k) r := by
  unfold kronApply5
  simp only [Finset.mul_sum]
  conv_rhs => rw [Finset.sum_comm]
  refine Finset.sum_congr rfl (fun k1 _ => ?_)
  conv_rhs => rw [Finset.sum_comm]
  refine Finset.sum_congr rfl (fun k2 _ => ?_)
  conv_rhs => rw [Finset.sum_comm]
  refine Finset.sum_congr rfl (fun k3 _ => ?_)
  conv_rhs => rw [Finset.sum_comm]
  refine Finset.sum_congr rfl (fun k4 _ => ?_)
  conv_rhs => rw [Finset.sum_comm]
  refine Finset.sum_congr rfl (fun k5 _ => ?_)
  refine Finset.sum_congr rfl (fun k _ => ?_)
  ring

end KronProofs

/-! ## Claims on `kronmult3.hpp` and `kronmult6.hpp`: results on memory -/

section KronClaims

variable {R : Type} [CommRing R]

/-- Every offset below `q * k` splits as `a + q*b` with `a < q`, `b < k`. -/
theorem split_offset {q k p : Nat} (hp : p < q * k) : ∃ a b, a < q ∧ b < k ∧ p = a + q * b := by
  have hq : 0 < q := by
    rcases Nat.eq_zero_or_pos q with h0 | h0
    · subst h0; simp at hp
    · exact h0
  exact ⟨p % q, p / q, Nat.mod_lt p hq, Nat.div_lt_of_lt_mul hp, (Nat.mod_add_div p q).symm⟩

/-- Result of `kronmult3` on memory, entry by entry: `Y = kron(A1, A2, A3) * X0`. -/
theorem kronmult3_dense_aux (n nvec A1_ A2_ A3_ X_ Y_ W_ : Nat) (m : Mem R)
    (hXW : sep X_ (n ^ 3 * nvec) W_ (n ^ 3 * nvec))
    (hA1W : sep A1_ (n * n) W_ (n ^ 3 * nvec))
    (hA2W : sep A2_ (n * n) W_ (n ^ 3 * nvec))
    (hA3W : sep A3_ (n * n) W_ (n ^ 3 * nvec))
    (i1 i2 i3 v : Nat) (h1 : i1 < n) (h2 : i2 < n) (h3 : i3 < n) (hv : v < nvec) :
    kronmult3 kgemm_nt kronmult2 n nvec A1_ A2_ A3_ X_ Y_ W_ m
        (Y_ + (i3 + n * i2 + n ^ 2 * i1 + n ^ 3 * v))
      = ∑ k1 in Finset.range n, ∑ k2 in Finset.range n, ∑ k3 in Finset.range n,
          m (A1_ + (i1 + n * k1)) * m (A2_ + (i2 + n * k2)) * m (A3_ + (i3 + n * k3)) *
            m (X_ + (k3 + n * k2 + n ^ 2 * k1 + n ^ 3 * v)) := by
  have hn : 0 < n := Nat.lt_of_le_of_lt (Nat.zero_le _) h1
  obtain ⟨hl1, hl2⟩ := kronmult3_loop_spec n nvec A1_ X_ W_ m hXW hA1W
  have hc : i1 + n * v < nvec * n := by
    rw [Nat.mul_comm nvec n]; exact add_mul_lt_mul_left h1 hv
  have hr : i3 + n * i2 < n ^ 2 := by
    rw [pow_two]; exact add_mul_lt_mul_left h3 h2
  have eaddr : Y_ + (i3 + n * i2 + n ^ 2 * i1 + n ^ 3 * v)
      = Y_ + ((i3 + n * i2) + n ^ 2 * (i1 + n * v)) := by ring
  have ediv : (i3 + n * i2) / n = i2 := by
    rw [Nat.add_mul_div_left _ _ hn, Nat.div_eq_of_lt h3, Nat.zero_add]
  have emod : (i3 + n * i2) % n = i3 := by
    rw [Nat.add_mul_mod_self_left, Nat.mod_eq_of_lt h3]
  simp only [kronmult3]
  rw [eaddr, kronmult2_spec _ _ _ _ _ _ _ _ _ _ hc hr]
  unfold kronApply2
  rw [ediv, emod]
  conv_rhs => rw [Finset.sum_comm]
  refine Finset.sum_congr rfl (fun k2 hk2 => ?_)
  conv_rhs => rw [Finset.sum_comm]
  refine Finset.sum_congr rfl (fun k3 hk3 => ?_)
  rw [Finset.mem_range] at hk2 hk3
  have hk32 : k3 + n * k2 < n ^ 2 := by
    rw [pow_two]; exact add_mul_lt_mul_left hk3 hk2
  have ew : W_ + (k3 + n * k2 + n ^ 2 * (i1 + n * v))
      = W_ + ((k3 + n * k2) + n ^ 2 * i1 + n ^ 3 * v) := by ring
  beta_reduce
  rw [matAt_frame _ m A2_ n W_ (n ^ 3 * nvec) hl2 hA2W i2 k2 h2 hk2,
    matAt_frame _ m A3_ n W_ (n ^ 3 * nvec) hl2 hA3W i3 k3 h3 hk3,
    ew, hl1 v (k3 + n * k2) i1 hv hk32 h1, Finset.mul_sum]
  refine Finset.sum_congr rfl (fun k1 _ => ?_)
  unfold matAt
  ring

/-- Result of `kronmult6` on memory without a stride override, entry by entry:
`Y = kron(A1, ..., A6) * X0`, the last five factors applied through `kronApply5`. -/
theorem kronmult6_dense_aux (n nvec A1_ A2_ A3_ A4_ A5_ A6_ X_ Y_ W_ : Nat) (m : Mem R)
    (hXW : sep X_ (n ^ 6 * nvec) W_ (n ^ 6 * nvec))
    (hA1W : sep A1_ (n * n) W_ (n ^ 6 * nvec))
    (hA2W : sep A2_ (n * n) W_ (n ^ 6 * nvec))
    (hA3W : sep A3_ (n * n) W_ (n ^ 6 * nvec))
    (hA4W : sep A4_ (n * n) W_ (n ^ 6 * nvec))
    (hA5W : sep A5_ (n * n) W_ (n ^ 6 * nvec))
    (hA6W : sep A6_ (n * n) W_ (n ^ 6 * nvec))
    (r i1 v : Nat) (hr : r < n ^ 5) (h1 : i1 < n) (hv : v < nvec) :
    kronmult6 kgemm_nt kronmult5 n nvec A1_ A2_ A3_ A4_ A5_ A6_ X_ Y_ W_ 0 m
        (Y_ + (r + n ^ 5 * i1 + n ^ 6 * v))
      = ∑ k1 in Finset.range n, m (A1_ + (i1 + n * k1)) *
          kronApply5 n (matAt m A2_ n) (matAt m A3_ n) (matAt m A4_ n) (matAt m A5_ n)
            (matAt m A6_ n) (fun p => m (X_ + (p + n ^ 5 * k1 + n ^ 6 * v))) r := by
  have hA1W' : sep A1_ ((n - 1) * n + n) W_ (n ^ 6 * nvec) := by
    rw [pred_mul_add_self]; exact hA1W
  obtain ⟨hl1, hl2⟩ := kronmult6_loop_spec n nvec A1_ X_ W_ 0 n m (by simp) hXW hA1W'
  have hc : i1 + n * v < nvec * n := by
    rw [Nat.mul_comm nvec n]; exact add_mul_lt_mul_left h1 hv
  have eaddr : Y_ + (r + n ^ 5 * i1 + n ^ 6 * v) = Y_ + (r + n ^ 5 * (i1 + n * v)) := by ring
  simp only [kronmult6, if_true]
  rw [eaddr, kronmult5_spec _ _ _ _ _ _ _ _ _ _ _ _ _ _ hc hr, ite_self,
    ← kronApply5_linear]
  apply kronApply5_congr n _ _ _ _ _ _ _ _ _ _ _ _ r hr
  · exact matAt_frame _ m A2_ n W_ (n ^ 6 * nvec) hl2 hA2W
  · exact matAt_frame _ m A3_ n W_ (n ^ 6 * nvec) hl2 hA3W
  · exact matAt_frame _ m A4_ n W_ (n ^ 6 * nvec) hl2 hA4W
  · exact matAt_frame _ m A5_ n W_ (n ^ 6 * nvec) hl2 hA5W
  · exact matAt_frame _ m A6_ n W_ (n ^ 6 * nvec) hl2 hA6W
  · intro p hp
    have ew : W_ + (p + n ^ 5 * (i1 + n * v)) = W_ + (p + n ^ 5 * i1 + n ^ 6 * v) := by ring
    rw [ew, hl1 v p i1 hv hp h1]

end KronClaims

section KronClaimTheorems

variable {R : Type} [CommRing R]

end KronClaimTheorems

/-! ## Claims on `kronmult3.hpp` and `kronmult6.hpp`: the calls issued -/

section CallLog

variable {R : Type} [CommRing R]

/-- A loop that appends one entry per iteration appends the entries in order. -/
theorem forLoop_append {α : Type} (n : Nat) (f : Nat → α) (log : List α) :
    forLoop n (fun i s => s ++ [f i]) log = log ++ (List.range n).map f := by
  induction n with
  | zero => simp [forLoop]
  | succ k ih => rw [forLoop_succ, ih, List.range_succ, List.map_append, List.append_assoc]; rfl

/-- A loop whose iterations all leave the state as it is leaves the state as it is. -/
theorem forLoop_id {σ : Type} (n : Nat) (body : Nat → σ → σ) (s : σ)
    (h : ∀ k, k < n → ∀ t, body k t = t) : forLoop n body s = s := by
  induction n with
  | zero => rfl
  | succ k ih =>
    rw [forLoop_succ, ih (fun j hj t => h j (Nat.lt_succ_of_lt hj) t)]
    exact h k (Nat.lt_succ_self k) s

/-- The calls issued by the first-factor loop of `kronmult3`. -/
theorem kronmult3_loop_calls (n nvec A1_ X_ W_ : Nat) (log : List (Call R)) :
    kronmult3_loop logGemm n nvec A1_ X_ W_ log
      = log ++ (List.range nvec).map (fun i0 =>
          Call.kgemm_nt (n ^ 2) n n (1 : R) (X_ + i0 * n ^ 3) (n ^ 2) A1_ n (0 : R)
            (W_ + i0 * n ^ 3) (n ^ 2)) := by
  have e1 : n * n = n ^ 2 := by ring
  have e2 : n * n ^ 2 = n ^ 3 := by ring
  simp only [kronmult3_loop, logGemm, indx2f, Nat.sub_self, Nat.zero_mul, Nat.add_zero,
    Nat.zero_add, Nat.add_sub_cancel, e1, e2]
  exact forLoop_append nvec _ log

/-- The calls issued by the first-factor loop of `kronmult6`. -/
theorem kronmult6_loop_calls (n nvec A1_ X_ W_ lda_in : Nat) (log : List (Call R)) :
    kronmult6_loop logGemm n nvec A1_ X_ W_ lda_in log
      = log ++ (List.range nvec).map (fun i0 =>
          Call.kgemm_nt (n ^ 5) n n (1 : R) (X_ + i0 * n ^ 6) (n ^ 5) A1_
            (if lda_in = 0 then n else lda_in) (0 : R) (W_ + i0 * n ^ 6) (n ^ 5)) := by
  have e1 : n * (n * n * (n * n)) = n ^ 5 := by ring
  have e2 : n * n * (n * n * (n * n)) = n ^ 6 := by ring
  simp only [kronmult6_loop, logGemm, indx2f, Nat.sub_self, Nat.zero_mul, Nat.add_zero,
    Nat.zero_add, Nat.add_sub_cancel, e1, e2]
  exact forLoop_append nvec _ log

/-- C10, as stated, fails: with `n = 0` and `nvec = 1` the first-factor loop of `kronmult3`
still runs once and issues one `kgemm_nt` call (of shape `0 × 0 × 0`), before the child call
`kronmult2`. -/
theorem kronmult3_zero_n_issues_gemm :
    kronmult3 logGemm logKron2 0 1 0 4 8 12 20 28 ([] : List (Call Int))
      = [Call.kgemm_nt 0 0 0 1 12 0 0 0 0 28 0, Call.kronmult2 0 0 4 8 28 20 12] ∧
    ((kronmult3 logGemm logKron2 0 1 0 4 8 12 20 28 ([] : List (Call Int))).filter
      Call.isGemm).length = 1 := by
  decide

/-- C10, amended: zero sizes in `kronmult3`.  For every call with `n = 0` or `nvec = 0`,
`kronmult3` issues `nvec` calls `kgemm_nt(0, 0, 0, 1, X, 0, A1, 0, 0, W, 0)` followed by the
child call `kronmult2(n, nvec*n, A2, A3, W, Y, X)`: no `kgemm_nt` call at all when `nvec = 0`,
and only calls of shape `0 × 0 × 0` when `n = 0`.  Under the GEMM contract its first-factor
loop leaves the whole memory as it was, and `kronmult3` writes nothing itself: with callees
that do nothing it leaves the state unchanged. -/
theorem kronmult3_zero_size (n nvec A1_ A2_ A3_ X_ Y_ W_ : Nat) (log : List (Call R))
    (m : Mem R) (h : n = 0 ∨ nvec = 0) :
    kronmult3 logGemm logKron2 n nvec A1_ A2_ A3_ X_ Y_ W_ log
      = log ++ List.replicate nvec (Call.kgemm_nt 0 0 0 (1 : R) X_ 0 A1_ 0 (0 : R) W_ 0)
        ++ [Call.kronmult2 n (nvec * n) A2_ A3_ W_ Y_ X_] ∧
    kronmult3_loop kgemm_nt n nvec A1_ X_ W_ m = m ∧
    kronmult3 (fun _ _ _ _ _ _ _ _ _ _ _ s => s : GemmNT (Mem R) R) (fun _ _ _ _ _ _ _ s => s)
      n nvec A1_ A2_ A3_ X_ Y_ W_ m = m := by
  refine ⟨?_, ?_, ?_⟩
  · simp only [kronmult3, kronmult3_loop_calls, logKron2]
    rcases h with h | h
    · subst h
      have e : (List.range nvec).map (fun i0 =>
          Call.kgemm_nt (0 ^ 2) 0 0 (1 : R) (X_ + i0 * 0 ^ 3) (0 ^ 2) A1_ 0 (0 : R)
            (W_ + i0 * 0 ^ 3) (0 ^ 2))
          = List.replicate nvec (Call.kgemm_nt 0 0 0 (1 : R) X_ 0 A1_ 0 (0 : R) W_ 0) := by
        simp
      rw [e]
    · subst h
      simp
  · rcases h with h | h
    · subst h
      simp only [kronmult3_loop]
      apply forLoop_id
      intro k _ t
      rfl
    · subst h
      rfl
  · simp only [kronmult3, kronmult3_loop]
    apply forLoop_id
    intro k _ t
    rfl

/-- C10 amended, at `n = 0`, `nvec = 2` on `memK3`. -/
theorem kronmult3_zero_size_witness :
    kronmult3 logGemm logKron2 0 2 0 4 8 12 20 28 ([] : List (Call Int))
      = [] ++ List.replicate 2 (Call.kgemm_nt 0 0 0 (1 : Int) 12 0 0 0 (0 : Int) 28 0)
        ++ [Call.kronmult2 0 (2 * 0) 4 8 28 20 12] ∧
    kronmult3_loop kgemm_nt 0 2 0 12 28 memK3 = memK3 ∧
    kronmult3 (fun _ _ _ _ _ _ _ _ _ _ _ s => s : GemmNT (Mem Int) Int)
      (fun _ _ _ _ _ _ _ s => s) 0 2 0 4 8 12 20 28 memK3 = memK3 :=
  kronmult3_zero_size 0 2 0 4 8 12 20 28 [] memK3 (by decide)

end CallLog

/-! ## Further claims on `kronmult6.hpp` -/

section Kron6More

variable {R : Type} [CommRing R]

/-- C18: the default stride of `kronmult6` is `n`.  Whatever `kgemm_nt` and `kronmult5` do
(any two functions on any state), `kronmult6` called with `lda_in = 0` makes the same calls
with the same arguments, and so ends in the same state, as `kronmult6` called with
`lda_in = n`; in particular the two call logs are equal. -/
theorem kronmult6_default_stride_is_n {σ : Type} (g : GemmNT σ R) (k5 : Kron5 σ)
    (n nvec A1_ A2_ A3_ A4_ A5_ A6_ X_ Y_ W_ : Nat) (s : σ) (log : List (Call R)) :
    kronmult6 g k5 n nvec A1_ A2_ A3_ A4_ A5_ A6_ X_ Y_ W_ 0 s
      = kronmult6 g k5 n nvec A1_ A2_ A3_ A4_ A5_ A6_ X_ Y_ W_ n s ∧
    kronmult6 logGemm logKron5 n nvec A1_ A2_ A3_ A4_ A5_ A6_ X_ Y_ W_ 0 log
      = kronmult6 logGemm logKron5 n nvec A1_ A2_ A3_ A4_ A5_ A6_ X_ Y_ W_ n log := by
  constructor <;> simp [kronmult6, kronmult6_loop]

end Kron6More

/-! ## Claims on the index and size arithmetic -/

/-- A wrapped value is a 32-bit value: it is below `2^31`. -/
theorem wrap32_lt (z : Int) : wrap32 z < 2 ^ 31 := by
  unfold wrap32
  have h : (z + 2 ^ 31) % 2 ^ 32 < 2 ^ 32 := Int.emod_lt_of_pos _ (by norm_num)
  omega

/-- C20: range of validity of the 32-bit size arithmetic of `kronmult6`.  With `int` wrapping
modulo `2^32`, the computed `n2`, `n4`, `n5`, `n6` equal `n^2`, `n^4`, `n^5`, `n^6` for every
`0 ≤ n ≤ 35`; at `n = 36` the computed `n6` differs from `36^6`, which exceeds `2^31 - 1`; and
for every `n ≥ 36` the computed `ldX` and `ldW` differ from `n^6`. -/
theorem kronmult6_sizes32_valid_up_to_35 :
    (∀ n : Int, 0 ≤ n → n ≤ 35 →
      (kronmult6_sizes32 n).n2 = n ^ 2 ∧ (kronmult6_sizes32 n).n4 = n ^ 4 ∧
      (kronmult6_sizes32 n).n5 = n ^ 5 ∧ (kronmult6_sizes32 n).n6 = n ^ 6) ∧
    ((kronmult6_sizes32 36).n6 ≠ 36 ^ 6 ∧ (2 : Int) ^ 31 - 1 < 36 ^ 6) ∧
    (∀ n : Int, 36 ≤ n →
      (kronmult6_sizes32 n).ldX ≠ n ^ 6 ∧ (kronmult6_sizes32 n).ldW ≠ n ^ 6) := by
  refine ⟨?_, ?_, ?_⟩
  · intro n h0 h35
    interval_cases n <;> decide
  · decide
  · intro n hn
    have hpow : (36 : Int) ^ 6 ≤ n ^ 6 := by gcongr
    have h36 : (2 : Int) ^ 31 < 36 ^ 6 := by norm_num
    have hw := wrap32_lt (wrap32 (n * n) * wrap32 (wrap32 (n * n) * wrap32 (n * n)))
    have hx : (kronmult6_sizes32 n).ldX < 2 ^ 31 := hw
    have hy : (kronmult6_sizes32 n).ldW < 2 ^ 31 := hw
    constructor <;> omega

/-- C20 at `n = 35` (the last exact value of `n6`) and at `n = 100` (a wrong `ldX`). -/
theorem kronmult6_sizes32_valid_up_to_35_witness :
    (kronmult6_sizes32 35).n6 = 35 ^ 6 ∧ (kronmult6_sizes32 100).ldX ≠ 100 ^ 6 :=
  ⟨(kronmult6_sizes32_valid_up_to_35.1 35 (by decide) (by decide)).2.2.2,
    (kronmult6_sizes32_valid_up_to_35.2.2 100 (by decide)).1⟩

/-! ## The concrete scenarios of degree 1 and 2 -/

/-- C12, as stated, fails: on `memD1` (`A1` the `3 × 3` identity, `X = [1,2,3,4,5,6]`),
`multiply_transpose` with `size_M = 3`, `stride_M = 3`, `nb_col_X = 2` leaves `Y[1] = 4`,
whereas `X[1] = 2`: the output is not `[1,2,3,4,5,6]`. -/
theorem multiply_transpose_identity_not_copy :
    multiply_transpose 0 2 6 3 3 15 21 memD1 (15 + 1) = 4 ∧ memD1 (0 + 1) = 2 ∧
    (List.range 6).map (fun p => multiply_transpose 0 2 6 3 3 15 21 memD1 (15 + p))
      ≠ [1, 2, 3, 4, 5, 6] := by
  decide

/-- C12, amended: with the degree-1 base case realised as one `multiply_transpose` call with
`size_M = 3`, `stride_M = 3`, `nb_col_X = 2`, `A1` the `3 × 3` identity and
`X = [1,2,3,4,5,6]`, the output buffer is `Y = [1,4,2,5,3,6]`: `Y` is `X^T` stored
column-major as a `2 × 3` matrix, `Y[i + 2*j] = X[j + 3*i]`. -/
theorem multiply_transpose_identity_transposes :
    (List.range 6).map (fun p => multiply_transpose 0 2 6 3 3 15 21 memD1 (15 + p))
      = [1, 4, 2, 5, 3, 6] ∧
    (∀ i, i < 2 → ∀ j, j < 3 →
      multiply_transpose 0 2 6 3 3 15 21 memD1 (15 + (i + 2 * j)) = memD1 (0 + (j + 3 * i))) := by
  decide

/-- C12 amended, at entry `(i, j) = (1, 2)`: `Y[5] = X[5]`. -/
theorem multiply_transpose_identity_transposes_witness :
    multiply_transpose 0 2 6 3 3 15 21 memD1 (15 + (1 + 2 * 2)) = memD1 (0 + (2 + 3 * 1)) :=
  multiply_transpose_identity_transposes.2 1 (by decide) 2 (by decide)

/-- A property that holds before a loop and is kept by every iteration holds after it. -/
theorem forLoop_inv {σ : Type} (P : σ → Prop) (n : Nat) (body : Nat → σ → σ) (s : σ)
    (h0 : P s) (hstep : ∀ k, k < n → ∀ t, P t → P (body k t)) : P (forLoop n body s) := by
  induction n with
  | zero => exact h0
  | succ k ih =>
    rw [forLoop_succ]
    exact hstep k (Nat.lt_succ_self k) _
      (ih (fun j hj t ht => hstep j (Nat.lt_succ_of_lt hj) t ht))

section BufferRoles

variable {R : Type} [CommRing R]

/-- The GEMM contract writes only the `mm × nn` entries of `C`, whatever the leading
dimensions are. -/
theorem kgemm_nt_frame (mm nn kk : Nat) (alpha : R) (A_ ldA B_ ldB : Nat) (beta : R)
    (C_ ldC : Nat) (mem : Mem R) (x : Nat)
    (hx : ∀ i, i < mm → ∀ j, j < nn → x ≠ C_ + indx2f (i + 1) (j + 1) ldC) :
    kgemm_nt mm nn kk alpha A_ ldA B_ ldB beta C_ ldC mem x = mem x := by
  unfold kgemm_nt
  apply forLoop_inv (fun t : Mem R => t x = mem x) nn _ mem rfl
  intro j hj t ht
  apply forLoop_inv (fun t : Mem R => t x = mem x) mm _ t ht
  intro i hi u hu
  show store u _ _ x = mem x
  rw [store_other u _ _ x (hx i hi j hj)]
  exact hu

/-- The slice of vector `i0` lies inside the first `nvec` slices. -/
theorem slice_offset_lt {n nvec i0 a b : Nat} (hi : i0 < nvec) (ha : a < n * n) (hb : b < n) :
    i0 * (n * (n * n)) + (a + b * (n * n)) < nvec * n ^ 3 := by
  have h1 : a + b * (n * n) < (n * n) * n := add_mul_lt_mul ha hb
  have e : n * (n * n) = (n * n) * n := by ring
  have e3 : n ^ 3 = (n * n) * n := by ring
  rw [e, e3]
  have h2 : (a + b * (n * n)) + i0 * ((n * n) * n) < ((n * n) * n) * nvec :=
    add_mul_lt_mul h1 hi
  rw [Nat.mul_comm nvec]
  omega

/-- The footprint of an `n^2 × n` column-major view of leading dimension `n^2` at `base` is the
range `[base, base + n^3)`. -/
theorem slice_footprint (n base x : Nat) :
    (∃ i, i < n ^ 2 ∧ ∃ k, k < n ∧ x = base + indx2f (i + 1) (k + 1) (n ^ 2))
      ↔ base ≤ x ∧ x < base + n ^ 3 := by
  have e3 : n ^ 3 = n ^ 2 * n := by ring
  constructor
  · rintro ⟨i, hi, k, hk, rfl⟩
    rw [indx2f_succ, e3]
    have h : i + k * n ^ 2 < n ^ 2 * n := add_mul_lt_mul hi hk
    omega
  · rintro ⟨h1, h2⟩
    have hy : x - base < n ^ 2 * n := by omega
    obtain ⟨a, b, ha, hb, hab⟩ := split_offset hy
    refine ⟨a, ha, b, hb, ?_⟩
    rw [indx2f_succ, Nat.mul_comm b]
    omega

end BufferRoles

/-! ## Zero sizes in `multiply_transpose` -/

/-- The first component of a loop on pairs, when the second component does not feed into it. -/
theorem forLoop_fst {α β : Type} (n : Nat) (body : Nat → α × β → α × β) (body1 : Nat → α → α)
    (h : ∀ k s, (body k s).1 = body1 k s.1) (s : α × β) :
    (forLoop n body s).1 = forLoop n body1 s.1 := by
  induction n with
  | zero => rfl
  | succ k ih => rw [forLoop_succ, forLoop_succ, h, ih]

/-- Recording the accesses does not change what `transpose` computes. -/
theorem transpose_tracked_fst {R : Type} (inBuf outBuf : BufLA) (input output matrix_size input_stride : Nat)
    (s : Mem R × List Access) :
    (transpose_tracked inBuf outBuf input output matrix_size input_stride s).1
      = transpose input output matrix_size input_stride s.1 := by
  unfold transpose_tracked transpose
  apply forLoop_fst
  intro r t
  apply forLoop_fst
  intro c u
  rfl

/-- Every access recorded by `transpose` is a load `input[colmajor(c, r, input_stride)]` or a
store `output[colmajor(r, c, matrix_size)]` with `r, c < matrix_size`: a property of accesses
that holds of these and of the accesses recorded before holds of all accesses after. -/
theorem transpose_tracked_accesses {R : Type} (inBuf outBuf : BufLA)
    (input output matrix_size input_stride : Nat) (s : Mem R × List Access)
    (P : Access → Prop) (h0 : ∀ a ∈ s.2, P a)
    (hload : ∀ r c, r < matrix_size → c < matrix_size →
      P (Access.mk false inBuf (colmajor c r input_stride)))
    (hstore : ∀ r c, r < matrix_size → c < matrix_size →
      P (Access.mk true outBuf (colmajor r c matrix_size))) :
    ∀ a ∈ (transpose_tracked inBuf outBuf input output matrix_size input_stride s).2, P a := by
  unfold transpose_tracked
  apply forLoop_inv (fun t : Mem R × List Access => ∀ a ∈ t.2, P a) matrix_size _ s h0
  intro r hr t ht
  apply forLoop_inv (fun t : Mem R × List Access => ∀ a ∈ t.2, P a) matrix_size _ t ht
  intro c hc u hu a ha
  simp only [List.mem_append, List.mem_cons, List.mem_singleton, List.not_mem_nil,
    or_false] at ha
  rcases ha with ha | ha | ha
  · exact hu a ha
  · rw [ha]; exact hload r c hr hc
  · rw [ha]; exact hstore r c hr hc

/-- `transpose` changes no cell outside the `matrix_size^2` cells of its output, whether or not
input and output overlap. -/
theorem transpose_frame {R : Type} (input output matrix_size input_stride : Nat) (m : Mem R) (x : Nat)
    (hx : x < output ∨ output + matrix_size * matrix_size ≤ x) :
    transpose input output matrix_size input_stride m x = m x := by
  unfold transpose
  apply forLoop_inv (fun t : Mem R => t x = m x) matrix_size _ m rfl
  intro r hr t ht
  apply forLoop_inv (fun t : Mem R => t x = m x) matrix_size _ t ht
  intro c hc u hu
  show store u _ _ x = m x
  have h : r + c * matrix_size < matrix_size * matrix_size := add_mul_lt_mul hr hc
  rw [store_other u _ _ x (by simp only [colmajor]; omega)]
  exact hu

section ZeroSize

variable {R : Type} [CommRing R]

/-- Recording the accesses does not change what `multiply_transpose` computes. -/
theorem multiply_transpose_tracked_fst (X nb_col_X M size_M stride_M Y M_transposed : Nat)
    (s : Mem R × List Access) :
    (multiply_transpose_tracked X nb_col_X M size_M stride_M Y M_transposed s).1
      = multiply_transpose X nb_col_X M size_M stride_M Y M_transposed s.1 := by
  unfold multiply_transpose_tracked multiply_transpose
  simp only []
  rw [← transpose_tracked_fst BufLA.M BufLA.M_transposed]
  apply forLoop_fst
  intro rowM t
  apply forLoop_fst
  intro colX u
  exact congrArg (store u.1 (Y + colmajor colX rowM nb_col_X)) <| forLoop_fst size_M
    (fun k (d : R × List Access) =>
      (d.1 + u.1 (X + colmajor 0 colX size_M + k) *
          u.1 (M_transposed + colmajor 0 rowM size_M + k),
        d.2 ++ [Access.mk false BufLA.X (colmajor 0 colX size_M + k),
                Access.mk false BufLA.M_transposed (colmajor 0 rowM size_M + k)]))
    (fun k dotprod => dotprod + u.1 (X + colmajor 0 colX size_M + k) *
      u.1 (M_transposed + colmajor 0 rowM size_M + k)) (fun _ _ => rfl) (0, u.2)

/-- With no column in `X`, the main loop of `multiply_transpose` does nothing. -/
theorem multiply_transpose_tracked_no_column (X M size_M stride_M Y M_transposed : Nat)
    (s : Mem R × List Access) :
    multiply_transpose_tracked X 0 M size_M stride_M Y M_transposed s
      = transpose_tracked BufLA.M BufLA.M_transposed M M_transposed size_M stride_M s := by
  unfold multiply_transpose_tracked
  simp only []
  apply forLoop_id
  intro k _ t
  rfl

end ZeroSize

end Kronmult
